import Mathlib

/-!
Verification of the version/changelog core of the `disperse` release tool.

Strings are modelled as lists of characters (`Str`); Rust byte lines are
modelled as UTF-8 strings (the `String::from_utf8` failure paths of the
source are outside the modelled domain).  Rust `i32` is modelled as `Int`;
the `str::parse::<i32>` range check is kept explicitly in `parseI32`.
A Rust computation that can `panic!` / `unwrap` on `None` / fail an
`assert!` is modelled by the `PRes` wrapper, whose `panicked` constructor
marks the abort.
-/

/-- Characters of a string, the model of Rust `&str` / `String`. -/
abbrev Str := List Char

/-- Shorthand turning a Lean string literal into its character list. -/
def str (s : String) : Str := s.data

/-- Outcome of a Rust computation that may panic (`unwrap`, `assert!`,
`panic!`): either a value or an abort. -/
inductive PRes (α : Type) where
  | ok (a : α)
  | panicked
  deriving Repr, DecidableEq

/-- Decidable equality for `Except`, used to evaluate results of fallible
operations on concrete inputs. -/
instance {e a : Type} [DecidableEq e] [DecidableEq a] : DecidableEq (Except e a) := fun x y =>
  match x, y with
  | .ok v, .ok w =>
    if h : v = w then isTrue (by rw [h]) else isFalse (fun hh => by cases hh; exact h rfl)
  | .error v, .error w =>
    if h : v = w then isTrue (by rw [h]) else isFalse (fun hh => by cases hh; exact h rfl)
  | .ok _, .error _ => isFalse (fun hh => by cases hh)
  | .error _, .ok _ => isFalse (fun hh => by cases hh)

/-- Release status, from `enum Status { Final, Dev }` in `src/lib.rs`. -/
inductive Status where
  | final
  | dev
  deriving Repr, DecidableEq

/-- The version value type, from `struct Version` in `src/version.rs`:
`major: i32`, `minor: Option<i32>`, `micro: Option<i32>`. -/
structure Version where
  major : Int
  minor : Option Int
  micro : Option Int
  deriving Repr, DecidableEq

/-! ### Decimal rendering and parsing of integers (model of `i32` Display / FromStr) -/

/-- The ASCII digit character for `d < 10`. -/
def dchar (d : Nat) : Char := Char.ofNat (d + 48)

/-- Big-endian decimal digits of `n`, empty for `n = 0`; `fuel`-structured
so that it computes by `rfl`/`decide` (fuel `≥ n` is always enough). -/
def renderNatAux : Nat → Nat → Str
  | 0, _ => []
  | fuel + 1, n => if n = 0 then [] else renderNatAux fuel (n / 10) ++ [dchar (n % 10)]

/-- Decimal rendering of a natural number, as Rust's `Display` for unsigned
values renders it. -/
def renderNat (n : Nat) : Str := if n = 0 then str "0" else renderNatAux n n

/-- Decimal rendering of an `i32` value (minus sign for negatives), the
model of `i32`'s `Display`. -/
def renderInt (n : Int) : Str :=
  if n < 0 then '-' :: renderNat (-n).toNat else renderNat n.toNat

/-- Numeric value of an ASCII digit character, `none` for non-digits. -/
def digitVal (c : Char) : Option Nat :=
  if '0' ≤ c ∧ c ≤ '9' then some (c.toNat - 48) else none

/-- Accumulating decimal parse over a digit string; fails at the first
non-digit character. -/
def pnAux (acc : Nat) : Str → Option Nat
  | [] => some acc
  | c :: rest =>
    match digitVal c with
    | none => none
    | some d => pnAux (acc * 10 + d) rest

/-- Parse of a non-empty all-digit string into a natural number. -/
def parseNatDigits (l : Str) : Option Nat :=
  match l with
  | [] => none
  | _ => pnAux 0 l

/-- `i32` range check: Rust's parse rejects values outside
`[-2^31, 2^31 - 1]`. -/
def i32chk (x : Int) : Option Int :=
  if -(2 ^ 31) ≤ x ∧ x < 2 ^ 31 then some x else none

/-- Whether an integer fits in `i32`. -/
def inI32 (x : Int) : Prop := -(2 ^ 31) ≤ x ∧ x < 2 ^ 31

instance (x : Int) : Decidable (inI32 x) := by unfold inI32; infer_instance

/-- Model of `str::parse::<i32>`: optional sign, then a non-empty digit
string, with the `i32` range check. -/
def parseI32 (l : Str) : Option Int :=
  match l with
  | '-' :: rest => (parseNatDigits rest).bind (fun m => i32chk (-(m : Int)))
  | '+' :: rest => (parseNatDigits rest).bind (fun m => i32chk (m : Int))
  | _ => (parseNatDigits l).bind (fun m => i32chk (m : Int))

/-! ### Version operations (src/version.rs) -/

/-- Model of `Version::to_string` (src/version.rs lines 31-42): the major
component, then `.minor` when present, then `.micro` when present.  Note
that a version with `micro` but no `minor` renders as `major.micro`. -/
def Version.render (v : Version) : Str :=
  renderInt v.major ++
    (match v.minor with | some m => '.' :: renderInt m | none => []) ++
    (match v.micro with | some m => '.' :: renderInt m | none => [])

/-- Typed error of `Version::from_str`: only a malformed major segment is
reported this way ("invalid major version"). -/
inductive VParseErr where
  | invalidMajor
  deriving Repr, DecidableEq

/-- Splitting on a separator character, Rust `str::split` semantics: empty
segments are preserved and the result is never empty. -/
def splitAll (c : Char) : Str → List Str
  | [] => [[]]
  | x :: xs =>
    if x = c then [] :: splitAll c xs
    else
      match splitAll c xs with
      | h :: t => (x :: h) :: t
      | [] => [[x]]

/-- Model of `Version::from_str` (src/version.rs lines 16-28).  The major
segment gets a typed error via `map_err`; the minor and micro segments are
parsed with a bare `unwrap`, so a present but malformed second or third
segment panics instead of producing an error. -/
def Version.fromStr (l : Str) : PRes (Except VParseErr Version) :=
  let parts := splitAll '.' l
  match parseI32 (parts.headD []) with
  | none => .ok (.error .invalidMajor)
  | some major =>
    match parts[1]? with
    | none => .ok (.ok ⟨major, none, none⟩)
    | some s1 =>
      match parseI32 s1 with
      | none => .panicked
      | some minor =>
        match parts[2]? with
        | none => .ok (.ok ⟨major, some minor, none⟩)
        | some s2 =>
          match parseI32 s2 with
          | none => .panicked
          | some micro => .ok (.ok ⟨major, some minor, some micro⟩)

/-- Reduction of an integer into the `i32` range `[-2^31, 2^31)` by
two's-complement wrap-around. -/
def wrap32 (x : Int) : Int := (x + 2 ^ 31) % 2 ^ 32 - 2 ^ 31

/-- Model of the source's `i32` `+= 1`: the successor wraps at `i32::MAX`
as in a release build (a debug build panics there instead; either way the
successor of `i32::MAX` is not a greater version). -/
def i32inc (x : Int) : Int := wrap32 (x + 1)

/-- An `i32` value strictly below `i32::MAX`, the side condition under
which `i32inc` is the true successor. -/
def noMax (x : Int) : Prop := -(2 ^ 31) ≤ x ∧ x < 2 ^ 31 - 1

instance (x : Int) : Decidable (noMax x) := by unfold noMax; infer_instance

/-- Increment of the rightmost present component, the `-1` arm of
`increase_version` (src/version.rs lines 414-422), with the wrapping `i32`
successor. -/
def incM1 (v : Version) : Version :=
  match v.micro with
  | some mc => { v with micro := some (i32inc mc) }
  | none =>
    match v.minor with
    | some mi => { v with minor := some (i32inc mi) }
    | none => { v with major := i32inc v.major }

/-- The component whose value `incM1` increments. -/
def rightmostComp (v : Version) : Int := v.micro.getD (v.minor.getD v.major)

/-- Model of `increase_version` (src/version.rs lines 397-425): index 0/1/2
increments major/minor/micro with the wrapping `i32` successor (an absent
component becomes `Some(1)`), index -1 increments the rightmost present
component, and any other index panics. -/
def increaseVersion (v : Version) (idx : Int) : PRes Version :=
  if idx = 0 then .ok { v with major := i32inc v.major }
  else if idx = 1 then
    .ok (match v.minor with
         | some mi => { v with minor := some (i32inc mi) }
         | none => { v with minor := some 1 })
  else if idx = 2 then
    .ok (match v.micro with
         | some mc => { v with micro := some (i32inc mc) }
         | none => { v with micro := some 1 })
  else if idx = -1 then .ok (incM1 v)
  else .panicked

/-- Strict order on optional components as derived by Rust's
`#[derive(PartialOrd, Ord)]` on `Option<i32>`: `None` sorts below any
`Some`. -/
def oLt : Option Int → Option Int → Prop
  | none, none => False
  | none, some _ => True
  | some _, none => False
  | some a, some b => a < b

instance (a b : Option Int) : Decidable (oLt a b) := by
  cases a <;> cases b <;> unfold oLt <;> infer_instance

/-- Strict lexicographic order on versions, as derived by
`#[derive(PartialOrd, Ord)]` on `Version` (major, then minor, then
micro). -/
def Version.lt (a b : Version) : Prop :=
  a.major < b.major ∨
    (a.major = b.major ∧
      (oLt a.minor b.minor ∨ (a.minor = b.minor ∧ oLt a.micro b.micro)))

instance (a b : Version) : Decidable (a.lt b) := by unfold Version.lt; infer_instance

/-- Non-strict companion of `Version.lt`. -/
def Version.le (a b : Version) : Prop := a.lt b ∨ a = b

instance (a b : Version) : Decidable (a.le b) := by unfold Version.le; infer_instance

/-! ### Generic string machinery -/

/-- `leadsList pat l` is true when `pat` is an initial segment of `l`
(model of byte-wise `starts_with` / prefix tests). -/
def leadsList : Str → Str → Bool
  | [], _ => true
  | _ :: _, [] => false
  | a :: as, b :: bs => a = b && leadsList as bs

/-- `trailsList pat l` is true when `pat` is a final segment of `l`
(model of `ends_with`). -/
def trailsList (pat l : Str) : Bool := leadsList pat.reverse l.reverse

/-- Number of positions of `l` at which `pat` starts (all start positions,
including overlapping ones). -/
def occCount (pat : Str) : Str → Nat
  | [] => if leadsList pat [] then 1 else 0
  | c :: rest => (if leadsList pat (c :: rest) then 1 else 0) + occCount pat rest

/-- Whether `pat` occurs anywhere in `l`. -/
def occursIn (pat l : Str) : Bool :=
  match l with
  | [] => leadsList pat []
  | c :: rest => leadsList pat (c :: rest) || occursIn pat rest

/-- Fuel-structured worker for `replaceAll`; fuel `≥ l.length` is always
enough. -/
def replaceAllAux (pat rep : Str) : Nat → Str → Str
  | _, [] => []
  | 0, l => l
  | fuel + 1, c :: rest =>
    if leadsList pat (c :: rest) then
      rep ++ replaceAllAux pat rep fuel ((c :: rest).drop pat.length)
    else
      c :: replaceAllAux pat rep fuel rest

/-- Model of Rust `str::replace`: replace every (left-to-right,
non-overlapping) occurrence of `pat` by `rep`. -/
def replaceAll (pat rep l : Str) : Str := replaceAllAux pat rep l.length l

/-- Split a string at the first occurrence of `pat`, returning the text
before and after it; `none` when `pat` does not occur. -/
def splitAtFirstOcc (pat : Str) : Str → Option (Str × Str)
  | [] => if leadsList pat [] then some ([], []) else none
  | c :: rest =>
    if leadsList pat (c :: rest) then some ([], (c :: rest).drop pat.length)
    else (splitAtFirstOcc pat rest).map (fun p => (c :: p.1, p.2))

/-- Model of Rust `str::split_once`: split at the first occurrence of the
character `c`, dropping the separator. -/
def splitOnce (c : Char) : Str → Option (Str × Str)
  | [] => none
  | x :: xs =>
    if x = c then some ([], xs)
    else (splitOnce c xs).map (fun p => (x :: p.1, p.2))

/-- Model of `str::trim`: strip whitespace from both ends. -/
def trimChars (l : Str) : Str :=
  ((l.dropWhile Char.isWhitespace).reverse.dropWhile Char.isWhitespace).reverse

/-- Insertion at an index, the model of `Vec::insert` (all call sites use
an index bounded by the length). -/
def insertAt {α : Type} : Nat → α → List α → List α
  | 0, a, l => a :: l
  | _ + 1, a, [] => [a]
  | n + 1, a, x :: xs => x :: insertAt n a xs

/-- Least `i ≤ bound` satisfying `p`, scanning upward from `i0`. -/
def findFirstAux (p : Nat → Bool) (i : Nat) : Nat → Option Nat
  | 0 => none
  | fuel + 1 => if p i then some i else findFirstAux p (i + 1) fuel

/-- Least `i ≤ n` satisfying `p`. -/
def findFirst (p : Nat → Bool) (n : Nat) : Option Nat := findFirstAux p 0 (n + 1)

/-- Greatest `i ≤ n` satisfying `p`, scanning downward. -/
def findTop (p : Nat → Bool) : Nat → Option Nat
  | 0 => if p 0 then some 0 else none
  | n + 1 => if p (n + 1) then some (n + 1) else findTop p n

/-! ### Tag codec (src/version.rs lines 376-395) -/

/-- The `$VERSION` token of tag templates. -/
def dollarV : Str := str "$VERSION"

/-- Model of `expand_tag`: replace every occurrence of `$VERSION` in the
template by the rendered version. -/
def expandTag (tagTemplate : Str) (v : Version) : Str :=
  replaceAll dollarV (v.render) tagTemplate

/-- Errors of `unexpand_tag`: the tag does not match the template shape, or
the captured text fails to parse as a version. -/
inductive UnexpandErr where
  | tagMismatch
  | badCapture (e : VParseErr)
  deriving Repr, DecidableEq

/-- `pat` starts at position `i` of `l`. -/
def occursAtB (pat l : Str) (i : Nat) : Bool := leadsList pat (l.drop i)

/-- Leftmost-greedy capture of the regex `pre(.*)post` against `tag`, for
regex-literal `pre`/`post`: the match starts at the least position where
`pre` matches and a full match exists, and the greedy `(.*)` extends to the
last position where `post` still matches.  This models the `regex` crate's
behaviour on the patterns `unexpand_tag` builds, for templates whose fixed
text contains no regex metacharacters. -/
def regexCaptureLit (pre post tag : Str) : Option Str :=
  match findFirst
      (fun i =>
        occursAtB pre tag i &&
          (List.range (tag.length + 1)).any
            (fun j => decide (i + pre.length ≤ j) && occursAtB post tag j))
      tag.length with
  | none => none
  | some i =>
    match findTop (fun j => decide (i + pre.length ≤ j) && occursAtB post tag j)
        tag.length with
    | none => none
    | some j => some ((tag.drop (i + pre.length)).take (j - (i + pre.length)))

/-- Model of `unexpand_tag` (src/version.rs lines 380-395): the code builds
a regex from `template.replace("$VERSION", "(.*)")` and parses capture
group 1 as a version.  The model is stated for templates in which
`$VERSION` occurs exactly once and the remaining text is regex-literal
(no metacharacters); it splits the template at the `$VERSION` token and
applies the literal leftmost-greedy capture semantics. -/
def unexpandTag (tagTemplate tag : Str) : PRes (Except UnexpandErr Version) :=
  match splitAtFirstOcc dollarV tagTemplate with
  | none =>
    -- no capture group in the pattern: `m.get(1).unwrap()` panics on a
    -- match, otherwise the mismatch error is returned
    if occursIn tagTemplate tag then .panicked else .ok (.error .tagMismatch)
  | some (pre, post) =>
    match regexCaptureLit pre post tag with
    | none => .ok (.error .tagMismatch)
    | some cap =>
      match Version.fromStr cap with
      | .panicked => .panicked
      | .ok (.error e) => .ok (.error (.badCapture e))
      | .ok (.ok v) => .ok (.ok v)

/-- The regex metacharacters of the `regex` crate; templates whose fixed
text avoids them compile to themselves as literal patterns. -/
def regexLiteral (l : Str) : Bool :=
  l.all (fun c => !(str ".*+?()[]\x7b\x7d|^\\$").contains c)

/-! ### Changelog file model (src/news_file.rs) -/

/-- Errors of the news-file operations (src/news_file.rs `enum Error`); the
tree-access variant is outside the pure model. -/
inductive NewsErr where
  | noUnreleasedChanges
  | oddVersion (s : Str)
  | pendingExists (lastVersion : Version) (lastDate : Option Str)
  | invalidData (s : Str)
  deriving Repr, DecidableEq

/-- Model of `date_is_placeholder` (src/news_file.rs lines 5-7). -/
def dateIsPlaceholder (d : Str) : Bool :=
  d = str "UNRELEASED" || leadsList (str "NEXT ") d || d = str "NEXT" || d = str "%(date)s"

/-- Model of `check_version` (src/news_file.rs lines 9-19): placeholder
tokens give `true`, strings matching `^[0-9.]+$` give `false`, anything
else is the `OddVersion` error. -/
def checkVersion (v : Str) : Except NewsErr Bool :=
  if v = str "UNRELEASED" || v = str "%(version)s" || v = str "NEXT" then .ok true
  else if !v.isEmpty && v.all (fun c => c.isDigit || c = '.') then .ok false
  else .error (.oddVersion v)

/-- Model of `expand_template` (src/news_file.rs lines 21-25). -/
def expandTemplate (template : Str) (version : Version) (date : Str) : Str :=
  replaceAll (str "%(date)s") date
    (replaceAll (str "%(version)s") version.render template)

/-- Model of `skip_header` (src/news_file.rs lines 27-53): the number of
leading lines that are "Changelog for " banners, lines ending in
" release notes", lines made only of `=`/`-`, or empty lines. -/
def skipHeader : List Str → Nat
  | [] => 0
  | l :: rest =>
    if leadsList (str "Changelog for ") l || trailsList (str " release notes") l
        || l.all (fun c => c = '=' || c = '-') || l.isEmpty then
      1 + skipHeader rest
    else 0

/-- Model of `parse_version_line` (src/news_file.rs lines 90-162): trim the
line; a tab splits version and date; otherwise the first space splits them
(parenthesised dates are unwrapped); otherwise the whole line is the
version.  Returns `(version, date, line template, pending)` with
placeholders blanked to `none`.  In the source the tab and space branches
guard `split_once` behind `contains`, which succeeds exactly when
`split_once` does, so the model matches on `splitOnce` directly.  The
`assert!(!version.is_empty())` of the space branch is modelled by the
panic case. -/
def parseVersionLine (line0 : Str) :
    PRes (Except NewsErr (Option Str × Option Str × Str × Bool)) :=
  let line := trimChars line0
  match splitOnce '\t' line with
  | some (version, date) =>
    (match checkVersion version with
     | .error e => .ok (.error e)
     | .ok vph =>
       let dph := dateIsPlaceholder date
       .ok (.ok (if vph then none else some version,
                 if dph then none else some date,
                 str "%(version)s\t%(date)s", vph || dph)))
  | none =>
    match splitOnce ' ' line with
    | some (version, date0) =>
      let stripped := leadsList (str "(") date0 && trailsList (str ")") date0
      let date := if stripped then (date0.drop 1).dropLast else date0
      let template :=
        if stripped then str "%(version)s (%(date)s)" else str "%(version)s %(date)s"
      if version.isEmpty then .panicked
      else
        (match checkVersion version with
         | .error e => .ok (.error e)
         | .ok vph =>
           let dph := dateIsPlaceholder date
           .ok (.ok (if vph then none else some version,
                     if dph then none else some date,
                     template, vph || dph)))
    | none =>
      match checkVersion line with
      | .error e => .ok (.error e)
      | .ok pending =>
        .ok (.ok (if pending then none else some line, none, str "%(version)s", pending))

/-- Model of `news_find_pending` (src/news_file.rs lines 71-81): skip the
header, parse the first substantive line (the exhausted-iterator `unwrap`
panics on a fully skipped file), return the captured version when the
entry is pending. -/
def newsFindPending (lines : List Str) : PRes (Except NewsErr (Option Str)) :=
  match lines.drop (skipHeader lines) with
  | [] => .panicked
  | line :: _ =>
    match parseVersionLine line with
    | .panicked => .panicked
    | .ok (.error e) => .ok (.error e)
    | .ok (.ok (lastVersion, _, _, pending)) =>
      if !pending then .ok (.ok none) else .ok (.ok lastVersion)

/-- Minimal shape check for a `chrono::NaiveDate` ISO parse: three
dash-separated non-empty digit groups.  It is provably never reached on
the `PendingExists` path (a pending entry with a real version has a
placeholder date), so only its type matters to the claims. -/
def parseDate (s : Str) : Option Str :=
  match splitAll '-' s with
  | [y, m, d] =>
    if !y.isEmpty && y.all Char.isDigit && !m.isEmpty && m.all Char.isDigit
        && !d.isEmpty && d.all Char.isDigit then some s else none
  | _ => none

/-- Model of `news_add_pending` (src/news_file.rs lines 164-193).  When the
first substantive entry is already pending, the entry's date (if any) is
parsed first, with a parse failure surfacing as `InvalidData`; the typed
`PendingExists` error is then built from `last_version.unwrap().parse()` —
a pending entry whose version token was a placeholder
(`last_version = None`) therefore panics.  Otherwise a blank line and the new header (rendered from the entry's own
template with the literal `UNRELEASED` date) are inserted before the
entry.  The source mutates `lines` only after the pending check, so the
error paths leave the lines unchanged; the model returns the new lines. -/
def newsAddPending (lines : List Str) (newVersion : Version) :
    PRes (Except NewsErr (List Str)) :=
  let i := skipHeader lines
  match lines.drop i with
  | [] => .panicked
  | line :: _ =>
    match parseVersionLine line with
    | .panicked => .panicked
    | .ok (.error e) => .ok (.error e)
    | .ok (.ok (lastVersion, lastDate, lineFormat, pending)) =>
      if pending then
        -- the source parses last_date first (propagating `InvalidData`
        -- through `?`), and only then unwraps last_version
        match (match lastDate with
               | none => Except.ok (none : Option Str)
               | some d =>
                 match parseDate d with
                 | none => Except.error (NewsErr.invalidData d)
                 | some d' => Except.ok (some d')) with
        | .error e => .ok (.error e)
        | .ok pd =>
          match lastVersion with
          | none => .panicked
          | some lv =>
            match Version.fromStr lv with
            | .panicked => .panicked
            | .ok (.error _) => .ok (.error (.invalidData lv))
            | .ok (.ok pv) => .ok (.error (.pendingExists pv pd))
      else
        let newVersionLine := expandTemplate lineFormat newVersion (str "UNRELEASED") ++ str "\n"
        .ok (.ok (insertAt i newVersionLine (insertAt i (str "\n") lines)))

/-- Model of the pure core of `news_mark_released` (src/news_file.rs lines
269-316), with the tree I/O stripped and the release date passed as its
formatted `YYYY-MM-DD` string.  A non-pending first entry is the
`NoUnreleasedChanges` error; a pending entry with a real version that
differs from `expected_version` fails the `assert_eq!` (panic); the
following blank/indented lines form the change-notes block and the header
is rewritten from its template. -/
def newsMarkReleased (lines : List Str) (expectedVersion : Version) (dateStr : Str) :
    PRes (Except NewsErr (List Str × Str)) :=
  let i := skipHeader lines
  match lines.drop i with
  | [] => .panicked
  | line :: _ =>
    match parseVersionLine line with
    | .panicked => .panicked
    | .ok (.error e) => .ok (.error e)
    | .ok (.ok (version, _, lineFormat, pending)) =>
      if !pending then .ok (.error .noUnreleasedChanges)
      else if version.any (fun v => !(expectedVersion.render == v)) then .panicked
      else
        let changeLines :=
          (lines.drop (i + 1)).takeWhile
            (fun l => (trimChars l).isEmpty || leadsList (str " ") l || leadsList (str "\t") l)
        let newLine := expandTemplate lineFormat expectedVersion dateStr ++ str "\n"
        .ok (.ok (lines.set i newLine, changeLines.flatten))

/-! ### Custom version-line updater (src/custom.rs) -/

/-- The keys of the `VERSION_VARIABLES` table (src/custom.rs lines 46-53).
The table is a `HashMap`, so its iteration order is arbitrary; the model
takes the order as an explicit parameter. -/
inductive VarKey where
  | tupled
  | statusTupled
  | version
  | majorV
  | minorV
  | microV
  deriving Repr, DecidableEq

/-- The `$NAME` token of each variable. -/
def varToken : VarKey → Str
  | .tupled => str "$TUPLED_VERSION"
  | .statusTupled => str "$STATUS_TUPLED_VERSION"
  | .version => str "$VERSION"
  | .majorV => str "$MAJOR_VERSION"
  | .minorV => str "$MINOR_VERSION"
  | .microV => str "$MICRO_VERSION"

/-- Model of the formatter functions (src/custom.rs lines 5-41).  The
tupled formatters call `v.minor().unwrap()` / `v.micro().unwrap()`, so
they panic whenever the component is absent; the plain component
formatters instead return `None` for an absent component. -/
def varFormatter (k : VarKey) (v : Version) (s : Status) : PRes (Option Str) :=
  match k with
  | .tupled =>
    match v.minor, v.micro with
    | some mi, some mc =>
      .ok (some (str "(" ++ renderInt v.major ++ str ", " ++ renderInt mi
        ++ str ", " ++ renderInt mc ++ str ")"))
    | _, _ => .panicked
  | .statusTupled =>
    match v.minor, v.micro with
    | some mi, some mc =>
      .ok (some (str "(" ++ renderInt v.major ++ str ", " ++ renderInt mi
        ++ str ", " ++ renderInt mc ++ str ", "
        ++ (match s with | .final => str "\"final\"" | .dev => str "\"dev\"")
        ++ str ", 0)"))
    | _, _ => .panicked
  | .version => .ok (some v.render)
  | .majorV => .ok (some (renderInt v.major))
  | .minorV => .ok (v.minor.map renderInt)
  | .microV => .ok (v.micro.map renderInt)

/-- The "no expansion for variable" error of `expand_version_vars`. -/
inductive ExpandErr where
  | noExpansion (k : VarKey)
  deriving Repr, DecidableEq

/-- Model of `expand_version_vars` (src/custom.rs lines 56-71),
parameterised by the `HashMap` iteration order: every formatter is
invoked (even for tokens absent from the text); a resolving variable is
substituted everywhere; an unresolved variable whose token occurs in the
current text is the "no expansion for variable" error. -/
def expandVersionVars (order : List VarKey) (text : Str) (v : Version) (s : Status) :
    PRes (Except ExpandErr Str) :=
  match order with
  | [] => .ok (.ok text)
  | k :: rest =>
    match varFormatter k v s with
    | .panicked => .panicked
    | .ok (some val) => expandVersionVars rest (replaceAll (varToken k) val text) v s
    | .ok none =>
      if occursIn (varToken k) text then .ok (.error (.noExpansion k))
      else expandVersionVars rest text v s

/-- One fixed enumeration of the six variables, used to instantiate the
arbitrary `HashMap` order in concrete evaluations. -/
def allVarKeys : List VarKey :=
  [.tupled, .statusTupled, .version, .majorV, .minorV, .microV]

/-! ### Version discovery: pick_new_version (src/src/main.rs lines 417-453) -/

/-- The cases of `FindPendingVersionError` (src/lib.rs lines 201-206). -/
inductive FindPendingErr where
  | oddPendingVersion (s : Str)
  | noUnreleasedChanges
  | other (s : Str)
  | notFound
  deriving Repr, DecidableEq

/-- Structured stand-ins for the formatted `Err(String)` messages of
`pick_new_version`. -/
inductive PickErr where
  | pendingOdd (s : Str)
  | noUnreleased
  | pendingOther (s : Str)
  | noVersionFound
  | lastVersionErr (s : Str)
  deriving Repr, DecidableEq

/-- The tag-collision loop of `pick_new_version` (src/src/main.rs lines
444-451): while the expanded tag of the candidate exists in the tag
namespace, increment the rightmost component.  Fuel-structured; the
source loops forever when every candidate's tag exists, which the model
maps to `none` at fuel exhaustion. -/
def pickLoopAux (tags : List Str) (tmpl : Str) : Nat → Version → Option Version
  | 0, _ => none
  | fuel + 1, v =>
    if (expandTag tmpl v) ∈ tags then pickLoopAux tags tmpl fuel (incM1 v)
    else some v

/-- Model of `pick_new_version` (src/src/main.rs lines 417-453),
parameterised by the outcomes of the external calls: the result of
`find_pending_version`, the result of `find_last_version`, the branch tag
namespace and the configured tag template.  A pending version is returned
as is; on `NotFound` the last version is run through the tag-collision
loop (fuel `tags.length + 1`, which covers every terminating run since
each loop iteration consumes a distinct tag). -/
def pickNewVersion (pending : Except FindPendingErr Version)
    (lastv : Except Str (Option Version × Option Status))
    (tags : List Str) (tmpl : Str) : Option (Except PickErr Version) :=
  match pending with
  | .ok v => some (.ok v)
  | .error .notFound =>
    match lastv with
    | .ok (some v, _) => (pickLoopAux tags tmpl (tags.length + 1) v).map .ok
    | .ok (none, _) => some (.error .noVersionFound)
    | .error s => some (.error (.lastVersionErr s))
  | .error (.oddPendingVersion s) => some (.error (.pendingOdd s))
  | .error .noUnreleasedChanges => some (.error .noUnreleased)
  | .error (.other s) => some (.error (.pendingOther s))

/-- `k`-fold rightmost increment, the candidate chain of the collision
loop. -/
def incIter : Nat → Version → Version
  | 0, v => v
  | k + 1, v => incIter k (incM1 v)

/-! ### Release orchestration, tag phase (src/src/main.rs lines 1290-1391)

The phase of `release_project` from the tag-existence check to the
publish/rollback decision.  External collaborators (git, the VCS branch,
artifact builders, registries) are oracles whose outcomes are fields of
`PhaseEnv`; the side effects issued are recorded as a trace of events.
The success value `()` marks reaching the post-publish continuation
(branch push, forge release, next-cycle bookkeeping), which no claim
depends on. -/

/-- Oracle for the tag phase of `release_project`. -/
structure PhaseEnv where
  /-- configured `tag_name` template (`cfg.tag_name.unwrap()`) -/
  tagTemplate : Str
  /-- the version being released -/
  newVersion : Version
  /-- the branch tag namespace (`branch().tags()`): queried by `has_tag`,
  mutated by `set_tag` / `delete_tag` -/
  tags : List Str
  dryRun : Bool
  /-- whether the repository is a git repository (signed `git tag` path) -/
  isGitRepo : Bool
  /-- outcome of the `git tag -as` command -/
  gitTagOk : Bool
  /-- outcome of `tags.set_tag` -/
  setTagOk : Bool
  hasSetupPy : Bool
  hasPyprojectToml : Bool
  /-- outcome of `create_setup_py_artifacts` / `create_python_artifacts`
  (their `Err` is hit by `unwrap`, i.e. panics) -/
  buildOk : Bool
  /-- outcome of `ws.push_tags` -/
  pushTagsOk : Bool
  /-- outcome of `publish_artifacts` -/
  publishOk : Bool
  /-- outcome of `tags.delete_tag` during rollback -/
  deleteTagOk : Bool

/-- Observable side effects of the tag phase. -/
inductive RelEvent where
  | createTagLocal (tag : Str)
  | buildPythonArtifacts
  | pushTagsRemote (tag : Str)
  | publishAttempt
  | deleteTagCall (tag : Str)
  deriving Repr, DecidableEq

/-- The release failures reachable in the modelled phase
(src/src/main.rs `enum ReleaseError`). -/
inductive RelErr where
  | releaseTagExists (tag : Str) (version : Version)
  | createTagFailed (tag : Str)
  | publishArtifactsFailed
  | otherErr (s : Str)
  deriving Repr, DecidableEq

/-- Model of `release_project` from the tag-existence check through the
publish/rollback decision (src/src/main.rs lines 1290-1391), returning the
outcome, the trace of issued side effects, and the final state of the
branch tag namespace.  The control flow mirrors the source: existing tag
⇒ `ReleaseTagExists` before anything else; tag creation (git command or
`set_tag`); Python artifact build (panics on build error via `unwrap`);
tag push unless dry-run (its error is reported as `CreateTagFailed`);
`publish_artifacts`; on publish failure the tag is deleted (unless
dry-run) before `PublishArtifactsFailed` is returned — a failing delete
surfaces as `Other` instead. -/
def releaseTagPhase (e : PhaseEnv) :
    PRes (Except RelErr Unit) × List RelEvent × List Str :=
  let tagName := expandTag e.tagTemplate e.newVersion
  if tagName ∈ e.tags then
    (.ok (.error (.releaseTagExists tagName e.newVersion)), [], e.tags)
  else
    let createOk := if e.isGitRepo then e.gitTagOk else e.setTagOk
    let tr1 := [RelEvent.createTagLocal tagName]
    if !createOk then (.ok (.error (.createTagFailed tagName)), tr1, e.tags)
    else
      let tags1 := tagName :: e.tags
      if (e.hasSetupPy || e.hasPyprojectToml) && !e.buildOk then
        (.panicked, tr1, tags1)
      else
        let tr2 := tr1 ++ (if e.hasSetupPy || e.hasPyprojectToml then
          [RelEvent.buildPythonArtifacts] else [])
        let tr3 := tr2 ++ (if !e.dryRun then [RelEvent.pushTagsRemote tagName] else [])
        if !e.dryRun && !e.pushTagsOk then
          (.ok (.error (.createTagFailed tagName)), tr3, tags1)
        else
          let tr4 := tr3 ++ [RelEvent.publishAttempt]
          if e.publishOk then (.ok (.ok ()), tr4, tags1)
          else if e.dryRun then
            (.ok (.error .publishArtifactsFailed), tr4, tags1)
          else
            let tr5 := tr4 ++ [RelEvent.deleteTagCall tagName]
            if e.deleteTagOk then
              (.ok (.error .publishArtifactsFailed), tr5, tags1.erase tagName)
            else
              (.ok (.error (.otherErr (str "delete_tag failed"))), tr5, tags1)

/-! ### Theorems -/

/-- The wrapped value is the value itself inside the `i32` range. -/
theorem wrap32_eq {x : Int} (h1 : -(2 ^ 31) ≤ x) (h2 : x < 2 ^ 31) :
    wrap32 x = x := by
  unfold wrap32
  omega

/-- Below `i32::MAX` the wrapping successor is the true successor. -/
theorem i32inc_eq {x : Int} (h : noMax x) : i32inc x = x + 1 := by
  obtain ⟨h1, h2⟩ := h
  unfold i32inc wrap32
  omega

/-- Claim C8, counterexample — at a component equal to `i32::MAX` the
increment wraps to `i32::MIN` (a debug build panics instead), so
`increase_version(v, -1)` is not strictly greater than `v` for the
version `1.2.2147483647`, refuting the claim's unrestricted "for every
version". -/
theorem c8_overflow_not_increasing :
    increaseVersion ⟨1, some 2, some (2 ^ 31 - 1)⟩ (-1) =
      .ok ⟨1, some 2, some (-(2 ^ 31))⟩ ∧
      ¬ Version.lt ⟨1, some 2, some (2 ^ 31 - 1)⟩ ⟨1, some 2, some (-(2 ^ 31))⟩ := by
  decide

/-- Claim C8, amended — Increment monotonicity away from overflow: for
every version `v` whose present components are `i32` values strictly
below `i32::MAX` and every index `i ∈ {-1, 0, 1, 2}`,
`increase_version(v, i)` succeeds and produces a version strictly greater
than `v` under the derived lexicographic ordering (absent components sort
below present ones).  Under the same no-overflow side condition the
orchestrator's asserted invariant `increment(new_version, -1) >
new_version` (src/src/main.rs lines 1488-1490) holds; at `i32::MAX` the
increment wraps (or panics in a debug build) and is not greater. -/
theorem c8_increment_monotonic_no_overflow (v : Version) (idx : Int)
    (h : idx = -1 ∨ idx = 0 ∨ idx = 1 ∨ idx = 2)
    (h1 : noMax v.major)
    (h2 : ∀ m, v.minor = some m → noMax m)
    (h3 : ∀ m, v.micro = some m → noMax m) :
    ∃ w, increaseVersion v idx = .ok w ∧ v.lt w := by
  obtain ⟨ma, mi, mc⟩ := v
  rcases h with h | h | h | h <;> subst h <;>
    cases hmi : mi <;> cases hmc : mc <;>
    simp only [increaseVersion, incM1, reduceIte] <;>
    simp only [hmi, hmc] at h2 h3 ⊢ <;>
    first
    | (refine ⟨_, rfl, ?_⟩
       simp [Version.lt, oLt, i32inc_eq h1, i32inc_eq (h2 _ rfl),
         i32inc_eq (h3 _ rfl)])
    | (refine ⟨_, rfl, ?_⟩
       simp [Version.lt, oLt, i32inc_eq h1, i32inc_eq (h2 _ rfl)])
    | (refine ⟨_, rfl, ?_⟩
       simp [Version.lt, oLt, i32inc_eq h1, i32inc_eq (h3 _ rfl)])
    | (refine ⟨_, rfl, ?_⟩
       simp [Version.lt, oLt, i32inc_eq h1])

/-- Witness for the amended C8 at `v = 1.2.3`, `idx = -1`. -/
theorem c8_increment_monotonic_no_overflow_witness :
    ∃ w, increaseVersion ⟨1, some 2, some 3⟩ (-1) = .ok w ∧
      Version.lt ⟨1, some 2, some 3⟩ w :=
  c8_increment_monotonic_no_overflow ⟨1, some 2, some 3⟩ (-1) (Or.inl rfl)
    (by decide) (fun m hm => by cases hm; decide) (fun m hm => by cases hm; decide)

/-- Claim C2 — Tag-exists short circuit: whenever the computed tag name
already exists in the branch's tag namespace, the tag phase of
`release_project` returns `ReleaseTagExists` with an empty effect trace
and an unchanged tag namespace — no artifact is built and no tag or
commit is pushed past that point. -/
theorem c2_tag_exists_short_circuit (e : PhaseEnv)
    (h : expandTag e.tagTemplate e.newVersion ∈ e.tags) :
    releaseTagPhase e =
      (.ok (.error (.releaseTagExists (expandTag e.tagTemplate e.newVersion)
        e.newVersion)), [], e.tags) := by
  simp [releaseTagPhase, h]

/-- Witness for C2: tag `v1.2.3` already present. -/
theorem c2_tag_exists_short_circuit_witness :
    releaseTagPhase
        ⟨str "v$VERSION", ⟨1, some 2, some 3⟩, [str "v1.2.3"], false, false,
          true, true, false, false, true, true, true, true⟩ =
      (.ok (.error (.releaseTagExists (expandTag (str "v$VERSION") ⟨1, some 2, some 3⟩)
        ⟨1, some 2, some 3⟩)), [],
        [str "v1.2.3"]) :=
  c2_tag_exists_short_circuit _ (by decide)

/-- Claim C1 — Rollback on publish failure: in a non-dry-run release where
tag creation and the tag push succeed and `publish_artifacts` then fails,
the tag phase issues a `delete_tag` for the released tag as its final side
effect, the tag is no longer in the tag namespace afterwards, and the
returned error is `PublishArtifactsFailed`. -/
theorem c1_rollback_on_publish_failure (e : PhaseEnv)
    (hnotag : expandTag e.tagTemplate e.newVersion ∉ e.tags)
    (hcreate : (if e.isGitRepo then e.gitTagOk else e.setTagOk) = true)
    (hbuild : e.buildOk = true)
    (hdry : e.dryRun = false)
    (hpush : e.pushTagsOk = true)
    (hpub : e.publishOk = false)
    (hdel : e.deleteTagOk = true) :
    (releaseTagPhase e).1 = .ok (.error .publishArtifactsFailed) ∧
      (releaseTagPhase e).2.1.getLast? =
        some (.deleteTagCall (expandTag e.tagTemplate e.newVersion)) ∧
      RelEvent.pushTagsRemote (expandTag e.tagTemplate e.newVersion) ∈
        (releaseTagPhase e).2.1 ∧
      expandTag e.tagTemplate e.newVersion ∉ (releaseTagPhase e).2.2 := by
  cases hgit : e.isGitRepo <;>
    simp [hgit] at hcreate <;>
    cases h1 : e.hasSetupPy <;> cases h2 : e.hasPyprojectToml <;>
    simp [releaseTagPhase, hnotag, hcreate, hbuild, hdry, hpush, hpub, hdel,
      hgit, h1, h2, List.getLast?, hnotag]

/-- Witness for C1: non-git repository, no Python manifests, publish
fails, delete succeeds. -/
theorem c1_rollback_on_publish_failure_witness :
    (releaseTagPhase
        ⟨str "v$VERSION", ⟨1, some 2, some 3⟩, [], false, false, true, true,
          false, false, true, true, false, true⟩).1 =
      .ok (.error .publishArtifactsFailed) ∧
    (releaseTagPhase
        ⟨str "v$VERSION", ⟨1, some 2, some 3⟩, [], false, false, true, true,
          false, false, true, true, false, true⟩).2.1.getLast? =
      some (.deleteTagCall (expandTag (str "v$VERSION") ⟨1, some 2, some 3⟩)) ∧
    RelEvent.pushTagsRemote (expandTag (str "v$VERSION") ⟨1, some 2, some 3⟩) ∈
      (releaseTagPhase
        ⟨str "v$VERSION", ⟨1, some 2, some 3⟩, [], false, false, true, true,
          false, false, true, true, false, true⟩).2.1 ∧
    expandTag (str "v$VERSION") ⟨1, some 2, some 3⟩ ∉
      (releaseTagPhase
        ⟨str "v$VERSION", ⟨1, some 2, some 3⟩, [], false, false, true, true,
          false, false, true, true, false, true⟩).2.2 :=
  c1_rollback_on_publish_failure _ (by decide) (by decide) (by decide)
    (by decide) (by decide) (by decide) (by decide)

/-- Claim C10 — Header-only changelogs: whenever `skip_header` consumes every
line (for example an empty file), `news_find_pending`, `news_add_pending`
and `news_mark_released` all panic on the exhausted line iterator
(`iter.next().unwrap()`) instead of returning a typed error — at least one
substantive line after the header is an unstated precondition of all
three. -/
theorem c10_header_only_panics (lines : List Str) (v : Version) (d : Str)
    (h : skipHeader lines = lines.length) :
    newsFindPending lines = .panicked ∧ newsAddPending lines v = .panicked ∧
      newsMarkReleased lines v d = .panicked := by
  have hd : lines.drop (skipHeader lines) = [] := by
    rw [h]; exact List.drop_length lines
  refine ⟨?_, ?_, ?_⟩ <;> simp [newsFindPending, newsAddPending, newsMarkReleased, hd]

/-- Witness for C10: a changelog consisting of a single banner line. -/
theorem c10_header_only_panics_witness :
    newsFindPending [str "Changelog for foo\n"] = .panicked ∧
      newsAddPending [str "Changelog for foo\n"] ⟨1, none, none⟩ = .panicked ∧
      newsMarkReleased [str "Changelog for foo\n"] ⟨1, none, none⟩
        (str "2021-01-01") = .panicked :=
  c10_header_only_panics [str "Changelog for foo\n"] ⟨1, none, none⟩
    (str "2021-01-01") (by decide)

/-- Claim C5, counterexample — a changelog whose first substantive line is
the bare placeholder `UNRELEASED` is classified as pending with no real
version token, and `news_add_pending` then panics on
`last_version.unwrap()` instead of returning the typed `PendingExists`
error, refuting the claim for placeholder-version pending entries. -/
theorem c5_placeholder_pending_panics :
    parseVersionLine (str "UNRELEASED\n") =
      .ok (.ok (none, none, str "%(version)s", true)) ∧
    newsAddPending [str "UNRELEASED\n"] ⟨1, some 2, some 4⟩ = .panicked := by
  decide

/-- Claim C5, amended — for every changelog whose first substantive line
parses as pending with a real (non-placeholder) version token that parses
as a version, `news_add_pending` fails with the typed
`PendingExists{last_version, last_date}` error (with `last_date = None`,
since a pending entry with a real version has a placeholder date) and
performs no mutation; a pending first entry whose version token is itself
a placeholder instead panics. -/
theorem c5_pending_exists_on_real_version (lines : List Str) (first : Str)
    (rest : List Str) (lv fmt : Str) (pv newV : Version)
    (hsplit : lines.drop (skipHeader lines) = first :: rest)
    (hparse : parseVersionLine first = .ok (.ok (some lv, none, fmt, true)))
    (hver : Version.fromStr lv = .ok (.ok pv)) :
    newsAddPending lines newV = .ok (.error (.pendingExists pv none)) := by
  simp [newsAddPending, hsplit, hparse, hver]

/-- Witness for the amended C5: pending entry `1.2.3 UNRELEASED`. -/
theorem c5_pending_exists_on_real_version_witness :
    newsAddPending [str "1.2.3 UNRELEASED\n"] ⟨1, some 2, some 4⟩ =
      .ok (.error (.pendingExists ⟨1, some 2, some 3⟩ none)) :=
  c5_pending_exists_on_real_version [str "1.2.3 UNRELEASED\n"]
    (str "1.2.3 UNRELEASED\n") [] (str "1.2.3")
    (str "%(version)s %(date)s") ⟨1, some 2, some 3⟩ ⟨1, some 2, some 4⟩
    (by decide) (by decide) (by decide)

/-- Claim C4 — Pending insertion round trip, the source's own test vector
(lines carry their trailing newline, as `get_file_lines` returns them):
`add_pending` on the given changelog with new version `1.2.4` inserts the
header `1.2.4 UNRELEASED` (rendered from the previous entry's
`%(version)s %(date)s` template with the literal `UNRELEASED` date) and a
blank line before the old entry, and `find_pending` on the result returns
`Some("1.2.4")`. -/
theorem c4_add_pending_round_trip :
    newsAddPending
        [str "Changelog for foo\n", str "1.2.3 2021-01-01\n", str "\n",
          str "  * Change 1\n", str "  * Change 2\n"] ⟨1, some 2, some 4⟩ =
      .ok (.ok [str "Changelog for foo\n", str "1.2.4 UNRELEASED\n", str "\n",
        str "1.2.3 2021-01-01\n", str "\n",
        str "  * Change 1\n", str "  * Change 2\n"]) ∧
    newsFindPending
        [str "Changelog for foo\n", str "1.2.4 UNRELEASED\n", str "\n",
          str "1.2.3 2021-01-01\n", str "\n",
          str "  * Change 1\n", str "  * Change 2\n"] =
      .ok (.ok (some (str "1.2.4"))) := by
  decide

/-- Claim C6 — a second or third dot-separated segment that is present but
not a valid integer makes `Version::from_str` panic (the source unwraps
the segment parse), rather than return the typed `ParseError` the claim
and the design require; only a malformed major segment gets the typed
error. -/
theorem c6_minor_micro_parse_panics :
    Version.fromStr (str "1.x") = .panicked ∧
      Version.fromStr (str "1.2.beta") = .panicked ∧
      Version.fromStr (str "x.2") = .ok (.error .invalidMajor) := by
  decide

/-- Claim C9 — the tupled formatters unwrap `minor`/`micro` and are invoked
for every variable regardless of whether its token occurs in the text, so
with `micro = None` the expansion panics under an iteration order that
reaches a tupled variable first (the variable table is a `HashMap` with
arbitrary order), instead of returning the "no expansion for variable"
error the claim requires; an order reaching `MICRO_VERSION` first does
return the typed error. -/
theorem c9_tupled_formatter_panics :
    expandVersionVars [.tupled, .statusTupled, .version, .majorV, .minorV, .microV]
        (str "$MICRO_VERSION") ⟨1, some 2, none⟩ .final = .panicked ∧
      expandVersionVars [.microV] (str "$MICRO_VERSION") ⟨1, some 2, none⟩ .final =
        .ok (.error (.noExpansion .microV)) := by
  decide

/-- Transitivity of the component order. -/
theorem oLt_trans {a b c : Option Int} (h1 : oLt a b) (h2 : oLt b c) : oLt a c := by
  cases a <;> cases b <;> cases c <;> (simp [oLt] at *; try omega)

/-- Transitivity of the version order. -/
theorem versionLt_trans {a b c : Version} (h1 : a.lt b) (h2 : b.lt c) : a.lt c := by
  unfold Version.lt at *
  rcases h1 with h1 | ⟨e1, h1⟩ <;> rcases h2 with h2 | ⟨e2, h2⟩
  · left; omega
  · left; omega
  · left; omega
  · right
    refine ⟨e1.trans e2, ?_⟩
    rcases h1 with h1 | ⟨f1, h1⟩ <;> rcases h2 with h2 | ⟨f2, h2⟩
    · left; exact oLt_trans h1 h2
    · left; exact f2 ▸ h1
    · left; exact f1 ▸ h2
    · right; exact ⟨f1.trans f2, oLt_trans h1 h2⟩

/-- A rightmost increment is strictly increasing while the incremented
component is below `i32::MAX`. -/
theorem versionLt_incM1 (v : Version) (h : noMax (rightmostComp v)) :
    v.lt (incM1 v) := by
  obtain ⟨ma, mi, mc⟩ := v
  cases mi <;> cases mc <;>
    simp only [rightmostComp, Option.getD] at h <;>
    simp [incM1, Version.lt, oLt, i32inc_eq h]

/-- `incM1` raises the rightmost component by one while it is below
`i32::MAX`. -/
theorem rightmostComp_incM1 (v : Version) (h : noMax (rightmostComp v)) :
    rightmostComp (incM1 v) = rightmostComp v + 1 := by
  obtain ⟨ma, mi, mc⟩ := v
  cases mi <;> cases mc <;>
    simp only [rightmostComp, Option.getD] at h ⊢ <;>
    simp [incM1, i32inc_eq h, rightmostComp]

/-- Every candidate of the collision chain is at least the starting
version, as long as the incremented component has `k` steps of headroom
below `i32::MAX`. -/
theorem versionLe_incIter (k : Nat) (v : Version)
    (hlo : -(2 ^ 31) ≤ rightmostComp v)
    (hhi : rightmostComp v + k ≤ 2 ^ 31 - 1) : v.le (incIter k v) := by
  induction k generalizing v with
  | zero => exact Or.inr rfl
  | succ k ih =>
    have hnm : noMax (rightmostComp v) := ⟨hlo, by omega⟩
    have h1 : v.lt (incM1 v) := versionLt_incM1 v hnm
    have hr := rightmostComp_incM1 v hnm
    rcases ih (incM1 v) (by rw [hr]; omega) (by rw [hr]; omega) with h2 | h2
    · exact Or.inl (versionLt_trans h1 h2)
    · exact Or.inl (h2 ▸ h1)

/-- Behaviour of the collision loop: if the first `k` candidates' tags all
exist and candidate `k`'s tag does not, the loop stops at candidate `k`
(any fuel above `k` is enough). -/
theorem pickLoopAux_spec (tags : List Str) (tmpl : Str) :
    ∀ (k fuel : Nat) (v : Version),
      (∀ j < k, expandTag tmpl (incIter j v) ∈ tags) →
      expandTag tmpl (incIter k v) ∉ tags →
      k < fuel →
      pickLoopAux tags tmpl fuel v = some (incIter k v) := by
  intro k
  induction k with
  | zero =>
    intro fuel v _ hmiss hfuel
    obtain ⟨f, rfl⟩ : ∃ f, fuel = f + 1 := ⟨fuel - 1, by omega⟩
    simp only [pickLoopAux, incIter] at *
    simp [hmiss]
  | succ k ih =>
    intro fuel v hhit hmiss hfuel
    obtain ⟨f, rfl⟩ : ∃ f, fuel = f + 1 := ⟨fuel - 1, by omega⟩
    have h0 : expandTag tmpl v ∈ tags := by
      have := hhit 0 (Nat.succ_pos k)
      simpa [incIter] using this
    simp only [pickLoopAux, h0, if_pos]
    have : pickLoopAux tags tmpl f (incM1 v) = some (incIter k (incM1 v)) := by
      refine ih f (incM1 v) ?_ ?_ (by omega)
      · intro j hj
        have := hhit (j + 1) (by omega)
        simpa [incIter] using this
      · simpa [incIter] using hmiss
    simpa [incIter] using this

/-- Claim C3, counterexample — with `find_pending_version = NotFound`, last
version `1.2.3` and an empty tag namespace, `pick_new_version` returns
`1.2.3` itself (the loop exits immediately because the tag is absent), so
the result is not strictly greater than the last released version as the
claim states. -/
theorem c3_no_increment_when_tag_absent :
    pickNewVersion (.error .notFound) (.ok (some ⟨1, some 2, some 3⟩, none)) []
        (str "v$VERSION") = some (.ok ⟨1, some 2, some 3⟩) ∧
      ¬ Version.lt ⟨1, some 2, some 3⟩ ⟨1, some 2, some 3⟩ := by
  decide

/-- Claim C3, amended — when `find_pending_version` yields `NotFound` and
`find_last_version` yields version `v`, `pick_new_version` returns the
first candidate of the chain `v, inc(v,-1), inc(inc(v,-1),-1), …` whose
expanded tag name is not in the tag namespace (provided some candidate
within `tags.length` steps escapes the namespace, which bounds every
terminating run of the source loop): the result's tag is not present and
every earlier candidate's tag was present; and when the incremented
component has `tags.length` steps of headroom below `i32::MAX` (so no
`i32` increment overflows), the result is `≥ v` — strictly greater
exactly when `v`'s own tag was present. -/
theorem c3_pick_new_version_fallback (tags : List Str) (tmpl : Str)
    (v : Version) (st : Option Status)
    (hmiss : ∃ k, k ≤ tags.length ∧ expandTag tmpl (incIter k v) ∉ tags)
    (hlo : -(2 ^ 31) ≤ rightmostComp v)
    (hhi : rightmostComp v + (tags.length : Int) ≤ 2 ^ 31 - 1) :
    ∃ k, pickNewVersion (.error .notFound) (.ok (some v, st)) tags tmpl =
        some (.ok (incIter k v)) ∧
      expandTag tmpl (incIter k v) ∉ tags ∧
      (∀ j < k, expandTag tmpl (incIter j v) ∈ tags) ∧
      v.le (incIter k v) := by
  have hex : ∃ k, expandTag tmpl (incIter k v) ∉ tags := by
    obtain ⟨k, _, hk⟩ := hmiss
    exact ⟨k, hk⟩
  classical
  set k0 := Nat.find hex with hk0
  have hspec : expandTag tmpl (incIter k0 v) ∉ tags := Nat.find_spec hex
  have hmin : ∀ j < k0, expandTag tmpl (incIter j v) ∈ tags := by
    intro j hj
    have := Nat.find_min hex hj
    simpa using this
  have hle : k0 ≤ tags.length := by
    obtain ⟨k, hk1, hk2⟩ := hmiss
    exact le_trans (Nat.find_min' hex hk2) hk1
  refine ⟨k0, ?_, hspec, hmin, versionLe_incIter k0 v hlo (by push_cast; omega)⟩
  simp only [pickNewVersion]
  rw [pickLoopAux_spec tags tmpl k0 (tags.length + 1) v hmin hspec (by omega)]
  rfl

/-- Witness for the amended C3: tag namespace `{v1.2.3}`, last version
`1.2.3`; the pick lands on `1.2.4`. -/
theorem c3_pick_new_version_fallback_witness :
    ∃ k, pickNewVersion (.error .notFound) (.ok (some ⟨1, some 2, some 3⟩, none))
        [str "v1.2.3"] (str "v$VERSION") =
        some (.ok (incIter k ⟨1, some 2, some 3⟩)) ∧
      expandTag (str "v$VERSION") (incIter k ⟨1, some 2, some 3⟩) ∉ [str "v1.2.3"] ∧
      (∀ j < k, expandTag (str "v$VERSION") (incIter j ⟨1, some 2, some 3⟩) ∈
        [str "v1.2.3"]) ∧
      Version.le ⟨1, some 2, some 3⟩ (incIter k ⟨1, some 2, some 3⟩) :=
  c3_pick_new_version_fallback [str "v1.2.3"] (str "v$VERSION")
    ⟨1, some 2, some 3⟩ none ⟨1, by constructor <;> decide⟩ (by decide) (by decide)

/-! ### Lemmas for the tag round trip (C7) -/

/-- A list is an initial segment of itself followed by anything. -/
theorem leadsList_append_self (p t : Str) : leadsList p (p ++ t) = true := by
  induction p with
  | nil => rfl
  | cons c cs ih => simp [leadsList, ih]

/-- A matching pattern is no longer than the text. -/
theorem leadsList_length_le {p l : Str} (h : leadsList p l = true) :
    p.length ≤ l.length := by
  induction p generalizing l with
  | nil => simp
  | cons c cs ih =>
    cases l with
    | nil => simp [leadsList] at h
    | cons d ds =>
      simp only [leadsList, Bool.and_eq_true] at h
      simpa using ih h.2

/-- Appending on the left cannot lose occurrences. -/
theorem occCount_append_ge (pat a b : Str) : occCount pat b ≤ occCount pat (a ++ b) := by
  induction a with
  | nil => simp
  | cons c cs ih =>
    calc occCount pat b ≤ occCount pat (cs ++ b) := ih
      _ ≤ occCount pat (c :: (cs ++ b)) := by simp [occCount]
      _ = occCount pat ((c :: cs) ++ b) := rfl

/-- With no occurrence of the pattern, `replaceAllAux` is the identity. -/
theorem replaceAllAux_no_occ {pat : Str} (rep : Str) {l : Str}
    (h : occCount pat l = 0) : ∀ fuel, replaceAllAux pat rep fuel l = l := by
  induction l with
  | nil => intro fuel; cases fuel <;> rfl
  | cons c cs ih =>
    intro fuel
    have e : occCount pat (c :: cs) =
        (if leadsList pat (c :: cs) then 1 else 0) + occCount pat cs := rfl
    rw [e] at h
    have h1 : leadsList pat (c :: cs) = false := by
      cases hb : leadsList pat (c :: cs)
      · rfl
      · rw [hb] at h; simp at h
    have h2 : occCount pat cs = 0 := by
      rw [h1] at h
      simpa using h
    cases fuel with
    | zero => rfl
    | succ f => simp [replaceAllAux, h1, ih h2]

/-- Unfolding of `occCount` at a cons cell. -/
theorem occCount_cons (pat : Str) (c : Char) (rest : Str) :
    occCount pat (c :: rest) =
      (if leadsList pat (c :: rest) then 1 else 0) + occCount pat rest := rfl

/-- A designated occurrence is counted. -/
theorem occCount_ge_one (pat : Str) (hpat : pat ≠ []) (a b : Str) :
    1 ≤ occCount pat (a ++ pat ++ b) := by
  obtain ⟨p0, p', rfl⟩ : ∃ p0 p', pat = p0 :: p' := by
    cases pat with
    | nil => exact absurd rfl hpat
    | cons p0 p' => exact ⟨p0, p', rfl⟩
  induction a with
  | nil =>
    simp only [List.nil_append]
    have e : occCount (p0 :: p') ((p0 :: p') ++ b) =
        (if leadsList (p0 :: p') ((p0 :: p') ++ b) then 1 else 0) +
          occCount (p0 :: p') (p' ++ b) := rfl
    rw [e, leadsList_append_self]
    simp
  | cons c cs ih =>
    have e : occCount (p0 :: p') ((c :: cs) ++ (p0 :: p') ++ b) =
        (if leadsList (p0 :: p') ((c :: cs) ++ (p0 :: p') ++ b) then 1 else 0) +
          occCount (p0 :: p') (cs ++ (p0 :: p') ++ b) := rfl
    rw [e]
    have := ih
    split <;> omega

/-- In a text with exactly one occurrence, nothing occurs past the
designated occurrence. -/
theorem single_occ_post {pat : Str} (hpat : pat ≠ []) {post : Str}
    (hocc : occCount pat (pat ++ post) = 1) : occCount pat post = 0 := by
  obtain ⟨p0, p', rfl⟩ : ∃ p0 p', pat = p0 :: p' := by
    cases pat with
    | nil => exact absurd rfl hpat
    | cons p0 p' => exact ⟨p0, p', rfl⟩
  have e : occCount (p0 :: p') ((p0 :: p') ++ post) =
      (if leadsList (p0 :: p') ((p0 :: p') ++ post) then 1 else 0) +
        occCount (p0 :: p') (p' ++ post) := rfl
  rw [e, leadsList_append_self] at hocc
  simp only [if_true] at hocc
  have h1 : occCount (p0 :: p') (p' ++ post) = 0 := by omega
  have h2 := occCount_append_ge (p0 :: p') p' post
  omega

/-- In a text with exactly one occurrence that sits behind a non-empty
prefix, the head position does not match and the tail still has exactly
one occurrence. -/
theorem single_occ_cons {pat : Str} (hpat : pat ≠ []) {c : Char} {cs post : Str}
    (hocc : occCount pat ((c :: cs) ++ pat ++ post) = 1) :
    leadsList pat ((c :: cs) ++ pat ++ post) = false ∧
      occCount pat (cs ++ pat ++ post) = 1 := by
  have hge : 1 ≤ occCount pat (cs ++ pat ++ post) := occCount_ge_one pat hpat cs post
  have e : occCount pat ((c :: cs) ++ pat ++ post) =
      (if leadsList pat ((c :: cs) ++ pat ++ post) then 1 else 0) +
        occCount pat (cs ++ pat ++ post) := rfl
  rw [e] at hocc
  cases hb : leadsList pat ((c :: cs) ++ pat ++ post) with
  | true => rw [hb] at hocc; simp only [if_true] at hocc; omega
  | false =>
    rw [hb] at hocc
    simp only [Bool.false_eq_true, if_false] at hocc
    exact ⟨rfl, by omega⟩

/-- `replaceAll` on a text with exactly one occurrence of the pattern
replaces exactly that occurrence. -/
theorem replaceAll_single_occ {pat : Str} (rep : Str) (hpat : pat ≠ [])
    {pre post : Str} (hocc : occCount pat (pre ++ pat ++ post) = 1) :
    replaceAll pat rep (pre ++ pat ++ post) = pre ++ rep ++ post := by
  suffices h : ∀ fuel, (pre ++ pat ++ post).length ≤ fuel →
      replaceAllAux pat rep fuel (pre ++ pat ++ post) = pre ++ rep ++ post by
    exact h _ le_rfl
  induction pre with
  | nil =>
    intro fuel hfuel
    simp only [List.nil_append] at hocc hfuel ⊢
    have hpost : occCount pat post = 0 := single_occ_post hpat hocc
    obtain ⟨p0, p', rfl⟩ : ∃ p0 p', pat = p0 :: p' := by
      cases pat with
      | nil => exact absurd rfl hpat
      | cons p0 p' => exact ⟨p0, p', rfl⟩
    obtain ⟨f, rfl⟩ : ∃ f, fuel = f + 1 := by
      refine ⟨fuel - 1, ?_⟩
      have : 1 ≤ ((p0 :: p') ++ post).length := by simp
      omega
    have e : replaceAllAux (p0 :: p') rep (f + 1) ((p0 :: p') ++ post) =
        if leadsList (p0 :: p') ((p0 :: p') ++ post) then
          rep ++ replaceAllAux (p0 :: p') rep f
            (((p0 :: p') ++ post).drop (p0 :: p').length)
        else p0 :: replaceAllAux (p0 :: p') rep f (p' ++ post) := rfl
    rw [e, leadsList_append_self]
    simp only [if_true]
    rw [List.drop_left (p0 :: p') post, replaceAllAux_no_occ rep hpost]
  | cons c cs ih =>
    intro fuel hfuel
    obtain ⟨hhd, hrest⟩ := single_occ_cons hpat hocc
    obtain ⟨f, rfl⟩ : ∃ f, fuel = f + 1 := by
      refine ⟨fuel - 1, ?_⟩
      have : 1 ≤ ((c :: cs) ++ pat ++ post).length := by simp
      omega
    have e : replaceAllAux pat rep (f + 1) ((c :: cs) ++ pat ++ post) =
        if leadsList pat ((c :: cs) ++ pat ++ post) then
          rep ++ replaceAllAux pat rep f
            (((c :: cs) ++ pat ++ post).drop pat.length)
        else c :: replaceAllAux pat rep f (cs ++ pat ++ post) := rfl
    rw [e, hhd]
    simp only [Bool.false_eq_true, if_false]
    have hf : (cs ++ pat ++ post).length ≤ f := by
      have : ((c :: cs) ++ pat ++ post).length = (cs ++ pat ++ post).length + 1 := by
        simp
      omega
    rw [ih hrest f hf]
    simp

/-- `splitAtFirstOcc` on a text with exactly one occurrence splits at that
occurrence. -/
theorem splitAtFirstOcc_single {pat : Str} (hpat : pat ≠ [])
    {pre post : Str} (hocc : occCount pat (pre ++ pat ++ post) = 1) :
    splitAtFirstOcc pat (pre ++ pat ++ post) = some (pre, post) := by
  induction pre with
  | nil =>
    simp only [List.nil_append] at hocc ⊢
    obtain ⟨p0, p', rfl⟩ : ∃ p0 p', pat = p0 :: p' := by
      cases pat with
      | nil => exact absurd rfl hpat
      | cons p0 p' => exact ⟨p0, p', rfl⟩
    have e : splitAtFirstOcc (p0 :: p') ((p0 :: p') ++ post) =
        if leadsList (p0 :: p') ((p0 :: p') ++ post) then
          some ([], ((p0 :: p') ++ post).drop (p0 :: p').length)
        else (splitAtFirstOcc (p0 :: p') (p' ++ post)).map
          (fun p => (p0 :: p.1, p.2)) := rfl
    rw [e, leadsList_append_self]
    simp only [if_true]
    rw [List.drop_left (p0 :: p') post]
  | cons c cs ih =>
    obtain ⟨hhd, hrest⟩ := single_occ_cons hpat hocc
    have e : splitAtFirstOcc pat ((c :: cs) ++ pat ++ post) =
        if leadsList pat ((c :: cs) ++ pat ++ post) then
          some ([], ((c :: cs) ++ pat ++ post).drop pat.length)
        else (splitAtFirstOcc pat (cs ++ pat ++ post)).map
          (fun p => (c :: p.1, p.2)) := rfl
    rw [e, hhd]
    simp only [Bool.false_eq_true, if_false]
    rw [ih hrest]
    rfl

/-- Facts about digit characters, checked by enumeration. -/
theorem dchar_facts : ∀ d < 10, digitVal (dchar d) = some d ∧
    dchar d ≠ '.' ∧ dchar d ≠ '-' ∧ dchar d ≠ '+' := by decide

/-- `pnAux` consumes an appended suffix after the prefix. -/
theorem pnAux_append (a b : Str) : ∀ acc, pnAux acc (a ++ b) =
    match pnAux acc a with
    | some acc' => pnAux acc' b
    | none => none := by
  induction a with
  | nil => intro acc; rfl
  | cons c cs ih =>
    intro acc
    simp only [List.cons_append, pnAux]
    cases digitVal c with
    | none => rfl
    | some d => exact ih _

/-- Value computed by `pnAux` over the digits rendered by
`renderNatAux`. -/
theorem pnAux_renderNatAux : ∀ fuel n acc, n ≤ fuel →
    pnAux acc (renderNatAux fuel n) =
      some (acc * 10 ^ (renderNatAux fuel n).length + n) := by
  intro fuel
  induction fuel with
  | zero =>
    intro n acc hn
    obtain rfl : n = 0 := Nat.le_zero.mp hn
    simp [renderNatAux, pnAux]
  | succ f ih =>
    intro n acc hn
    by_cases h0 : n = 0
    · subst h0; simp [renderNatAux, pnAux]
    · have e : renderNatAux (f + 1) n =
          renderNatAux f (n / 10) ++ [dchar (n % 10)] := by
        simp [renderNatAux, h0]
      have hdiv : n / 10 ≤ f := by
        have h1 : n / 10 < n := Nat.div_lt_self (Nat.pos_of_ne_zero h0) (by omega)
        omega
      rw [e, pnAux_append, ih (n / 10) acc hdiv]
      have hd := (dchar_facts (n % 10) (Nat.mod_lt n (by omega))).1
      simp only [pnAux, hd]
      have hlen : (renderNatAux f (n / 10) ++ [dchar (n % 10)]).length =
          (renderNatAux f (n / 10)).length + 1 := by simp
      rw [hlen]
      congr 1
      have := Nat.div_add_mod n 10
      ring_nf
      omega

/-- The rendering of a non-zero natural number is non-empty. -/
theorem renderNat_ne_nil (n : Nat) : renderNat n ≠ [] := by
  by_cases h0 : n = 0
  · subst h0; simp [renderNat, str]
  · obtain ⟨m, rfl⟩ : ∃ m, n = m + 1 := ⟨n - 1, by omega⟩
    simp [renderNat, renderNatAux]

/-- Round trip of the decimal rendering through the digit parser. -/
theorem parseNatDigits_renderNat (n : Nat) :
    parseNatDigits (renderNat n) = some n := by
  by_cases h0 : n = 0
  · subst h0; decide
  · have hne := renderNat_ne_nil n
    have e : renderNat n = renderNatAux n n := by simp [renderNat, h0]
    have hp : pnAux 0 (renderNatAux n n) =
        some (0 * 10 ^ (renderNatAux n n).length + n) :=
      pnAux_renderNatAux n n 0 le_rfl
    rw [e] at hne ⊢
    cases hl : renderNatAux n n with
    | nil => exact absurd hl hne
    | cons c cs =>
      rw [hl] at hp
      simpa [parseNatDigits] using hp

/-- Every character of `renderNatAux` is a digit character. -/
theorem renderNatAux_mem : ∀ fuel n c, c ∈ renderNatAux fuel n →
    ∃ d, d < 10 ∧ c = dchar d := by
  intro fuel
  induction fuel with
  | zero => intro n c h; simp [renderNatAux] at h
  | succ f ih =>
    intro n c h
    by_cases h0 : n = 0
    · subst h0; simp [renderNatAux] at h
    · simp only [renderNatAux, h0, if_false, List.mem_append, List.mem_singleton] at h
      rcases h with h | h
      · exact ih (n / 10) c h
      · exact ⟨n % 10, Nat.mod_lt n (by omega), h⟩

/-- Every character of `renderNat` is a digit character. -/
theorem renderNat_mem (n : Nat) (c : Char) (h : c ∈ renderNat n) :
    ∃ d, d < 10 ∧ c = dchar d := by
  by_cases h0 : n = 0
  · subst h0
    simp [renderNat, str] at h
    exact ⟨0, by omega, by rw [h]; rfl⟩
  · rw [renderNat, if_neg h0] at h
    exact renderNatAux_mem n n c h

/-- `parseI32` on a string that does not start with a sign character just
parses the digits. -/
theorem parseI32_not_sign (c : Char) (rest : Str) (h1 : c ≠ '-') (h2 : c ≠ '+') :
    parseI32 (c :: rest) =
      (parseNatDigits (c :: rest)).bind (fun m => i32chk (m : Int)) := by
  simp only [parseI32]
  split
  · rename_i heq; exact absurd (by injection heq) h1
  · rename_i heq; exact absurd (by injection heq) h2
  · rfl

/-- Round trip of `i32` rendering through `i32` parsing, for in-range
values. -/
theorem parseI32_renderInt (n : Int) (h : inI32 n) : parseI32 (renderInt n) = some n := by
  by_cases hneg : n < 0
  · have e : renderInt n = '-' :: renderNat (-n).toNat := by simp [renderInt, hneg]
    rw [e]
    have hv : -((((-n).toNat : Nat) : Int)) = n := by
      have : ((((-n).toNat : Nat) : Int)) = -n := Int.toNat_of_nonneg (by omega)
      omega
    have hstep : parseI32 ('-' :: renderNat (-n).toNat) = i32chk n := by
      simp only [parseI32, parseNatDigits_renderNat]
      rw [show ((some ((-n).toNat) : Option Nat).bind fun m => i32chk (-(m : Int))) =
        i32chk (-(((-n).toNat : Nat) : Int)) from rfl, hv]
    rw [hstep]
    have h' : -(2 ^ 31) ≤ n ∧ n < 2 ^ 31 := h
    simp only [i32chk, if_pos h']
  · have e : renderInt n = renderNat n.toNat := by simp [renderInt, hneg]
    rw [e]
    cases hl : renderNat n.toNat with
    | nil => exact absurd hl (renderNat_ne_nil _)
    | cons c cs =>
      obtain ⟨d, hd, rfl⟩ := renderNat_mem n.toNat c (by rw [hl]; exact List.mem_cons_self _ _)
      have hfacts := dchar_facts d hd
      rw [parseI32_not_sign _ _ hfacts.2.2.1 hfacts.2.2.2]
      rw [← hl, parseNatDigits_renderNat]
      have hv : ((n.toNat : Nat) : Int) = n := Int.toNat_of_nonneg (by omega)
      have h' : -(2 ^ 31) ≤ n ∧ n < 2 ^ 31 := h
      rw [Option.some_bind, hv]
      simp only [i32chk, if_pos h']

/-- No character of an `i32` rendering is a dot. -/
theorem renderInt_no_dot (n : Int) (c : Char) (h : c ∈ renderInt n) : c ≠ '.' := by
  unfold renderInt at h
  split at h
  · rcases List.mem_cons.mp h with rfl | h
    · decide
    · obtain ⟨d, hd, rfl⟩ := renderNat_mem _ c h
      exact (dchar_facts d hd).2.1
  · obtain ⟨d, hd, rfl⟩ := renderNat_mem _ c h
    exact (dchar_facts d hd).2.1

/-- `splitAll` on separator-free text yields a single segment. -/
theorem splitAll_no_sep {sep : Char} {a : Str} (h : ∀ c ∈ a, c ≠ sep) :
    splitAll sep a = [a] := by
  induction a with
  | nil => rfl
  | cons x xs ih =>
    have hx : x ≠ sep := h x (List.mem_cons_self x xs)
    have hxs := ih (fun c hc => h c (List.mem_cons_of_mem x hc))
    simp [splitAll, hx, hxs]

/-- `splitAll` peels off a separator-free leading segment. -/
theorem splitAll_append_sep {sep : Char} {a : Str} (rest : Str)
    (h : ∀ c ∈ a, c ≠ sep) :
    splitAll sep (a ++ sep :: rest) = a :: splitAll sep rest := by
  induction a with
  | nil => simp [splitAll]
  | cons x xs ih =>
    have hx : x ≠ sep := h x (List.mem_cons_self x xs)
    have hxs := ih (fun c hc => h c (List.mem_cons_of_mem x hc))
    have e : splitAll sep ((x :: xs) ++ sep :: rest) =
        (match splitAll sep (xs ++ sep :: rest) with
         | h :: t => (x :: h) :: t
         | [] => [[x]]) := by
      simp [splitAll, hx]
    rw [e, hxs]

/-- Round trip of version rendering through `Version::from_str`, for
well-formed versions (`micro` present only with `minor`) with `i32`-range
components. -/
theorem fromStr_render (v : Version)
    (hwf : v.micro.isSome → v.minor.isSome)
    (h1 : inI32 v.major)
    (h2 : ∀ m, v.minor = some m → inI32 m)
    (h3 : ∀ m, v.micro = some m → inI32 m) :
    Version.fromStr v.render = .ok (.ok v) := by
  obtain ⟨ma, mi, mc⟩ := v
  cases mi with
  | none =>
    cases mc with
    | some m => simp at hwf
    | none =>
      have e : Version.render ⟨ma, none, none⟩ = renderInt ma := by
        simp [Version.render]
      rw [e]
      have hsplit : splitAll '.' (renderInt ma) = [renderInt ma] :=
        splitAll_no_sep (fun c hc => renderInt_no_dot ma c hc)
      simp [Version.fromStr, hsplit, parseI32_renderInt ma h1]
  | some mivalue =>
    have hmi : inI32 mivalue := h2 mivalue rfl
    cases mc with
    | none =>
      have e : Version.render ⟨ma, some mivalue, none⟩ =
          renderInt ma ++ '.' :: renderInt mivalue := by
        simp [Version.render]
      rw [e]
      have hsplit : splitAll '.' (renderInt ma ++ '.' :: renderInt mivalue) =
          [renderInt ma, renderInt mivalue] := by
        rw [splitAll_append_sep _ (fun c hc => renderInt_no_dot ma c hc)]
        rw [splitAll_no_sep (fun c hc => renderInt_no_dot mivalue c hc)]
      simp [Version.fromStr, hsplit, parseI32_renderInt ma h1,
        parseI32_renderInt mivalue hmi]
    | some mcvalue =>
      have hmc : inI32 mcvalue := h3 mcvalue rfl
      have e : Version.render ⟨ma, some mivalue, some mcvalue⟩ =
          renderInt ma ++ '.' :: (renderInt mivalue ++ '.' :: renderInt mcvalue) := by
        simp [Version.render]
      rw [e]
      have hsplit : splitAll '.'
          (renderInt ma ++ '.' :: (renderInt mivalue ++ '.' :: renderInt mcvalue)) =
          [renderInt ma, renderInt mivalue, renderInt mcvalue] := by
        rw [splitAll_append_sep _ (fun c hc => renderInt_no_dot ma c hc)]
        rw [splitAll_append_sep _ (fun c hc => renderInt_no_dot mivalue c hc)]
        rw [splitAll_no_sep (fun c hc => renderInt_no_dot mcvalue c hc)]
      simp [Version.fromStr, hsplit, parseI32_renderInt ma h1,
        parseI32_renderInt mivalue hmi, parseI32_renderInt mcvalue hmc]

/-- A list is an initial segment of itself. -/
theorem leadsList_self (p : Str) : leadsList p p = true := by
  simpa using leadsList_append_self p []

/-- `findFirst` returns 0 when the predicate holds there. -/
theorem findFirst_zero {p : Nat → Bool} (h : p 0 = true) (n : Nat) :
    findFirst p n = some 0 := by
  simp [findFirst, findFirstAux, h]

/-- `findTop` finds the greatest index satisfying the predicate. -/
theorem findTop_spec {p : Nat → Bool} :
    ∀ n j, p j = true → (∀ k, j < k → k ≤ n → p k = false) → j ≤ n →
      findTop p n = some j := by
  intro n
  induction n with
  | zero =>
    intro j hj _ hle
    obtain rfl : j = 0 := Nat.le_zero.mp hle
    simp [findTop, hj]
  | succ n ih =>
    intro j hj hk hle
    by_cases hj1 : j = n + 1
    · subst hj1
      simp [findTop, hj]
    · have hfalse : p (n + 1) = false := hk (n + 1) (by omega) le_rfl
      have : findTop p n = some j := ih j hj (fun k h1 h2 => hk k h1 (by omega)) (by omega)
      simp [findTop, hfalse, this]

/-- The leftmost-greedy capture of `pre(.*)post` against
`pre ++ mid ++ post` is exactly `mid`. -/
theorem regexCaptureLit_spec (pre mid post : Str) :
    regexCaptureLit pre post (pre ++ mid ++ post) = some mid := by
  set tag := pre ++ mid ++ post with htag
  have hlen : tag.length = pre.length + mid.length + post.length := by
    simp [htag]
    omega
  have hdrop0 : tag.drop (pre.length + mid.length) = post := by
    rw [htag, show pre ++ mid ++ post = (pre ++ mid) ++ post by simp]
    have h := List.drop_left (pre ++ mid) post
    rw [List.length_append] at h
    exact h
  have hdropPre : tag.drop pre.length = mid ++ post := by
    rw [htag, show pre ++ mid ++ post = pre ++ (mid ++ post) by simp]
    exact List.drop_left pre (mid ++ post)
  have hpostAt : occursAtB post tag (pre.length + mid.length) = true := by
    rw [occursAtB, hdrop0]
    exact leadsList_self post
  have hjmem : pre.length + mid.length < tag.length + 1 := by omega
  have hP0 : (occursAtB pre tag 0 &&
      (List.range (tag.length + 1)).any
        (fun j => decide (0 + pre.length ≤ j) && occursAtB post tag j)) = true := by
    have h1 : occursAtB pre tag 0 = true := by
      rw [occursAtB, List.drop_zero, htag,
        show pre ++ mid ++ post = pre ++ (mid ++ post) by simp]
      exact leadsList_append_self pre (mid ++ post)
    rw [h1, Bool.true_and, List.any_eq_true]
    refine ⟨pre.length + mid.length, List.mem_range.mpr hjmem, ?_⟩
    rw [hpostAt, Bool.and_true]
    simp
  have htop : findTop
      (fun j => decide (0 + pre.length ≤ j) && occursAtB post tag j)
      tag.length = some (pre.length + mid.length) := by
    refine findTop_spec tag.length (pre.length + mid.length) ?_ ?_ (by omega)
    · rw [hpostAt, Bool.and_true]; simp
    · intro k hk1 hk2
      have hshort : (tag.drop k).length < post.length := by
        rw [List.length_drop]
        omega
      cases hb : occursAtB post tag k with
      | false => simp [hb]
      | true =>
        have := leadsList_length_le (by rw [occursAtB] at hb; exact hb)
        omega
  rw [regexCaptureLit, findFirst_zero hP0]
  show (match findTop
      (fun j => decide (0 + pre.length ≤ j) && occursAtB post tag j)
      tag.length with
    | none => none
    | some j => some ((tag.drop (0 + pre.length)).take (j - (0 + pre.length)))) =
    some mid
  rw [htop]
  show some ((tag.drop (0 + pre.length)).take
    (pre.length + mid.length - (0 + pre.length))) = some mid
  rw [show 0 + pre.length = pre.length by omega, hdropPre]
  rw [show pre.length + mid.length - pre.length = mid.length by omega]
  rw [List.take_left]

/-- Claim C7, counterexample — the tag round trip fails for the version
`(major 1, minor None, micro Some 3)`: it renders as `1.3`, which parses
back as `(1, Some 3, None)`, a different version, even for the plain
template `$VERSION`. -/
theorem c7_round_trip_fails_for_micro_without_minor :
    expandTag (str "$VERSION") ⟨1, none, some 3⟩ = str "1.3" ∧
      unexpandTag (str "$VERSION") (expandTag (str "$VERSION") ⟨1, none, some 3⟩) =
        .ok (.ok ⟨1, some 3, none⟩) ∧
      (⟨1, some 3, none⟩ : Version) ≠ ⟨1, none, some 3⟩ := by
  decide

/-- Claim C7, amended — tag round trip: for every template of the form
`pre ++ "$VERSION" ++ post` in which `$VERSION` occurs exactly once and
whose fixed text is regex-literal (the source compiles the template
directly as a regex, so metacharacters change its meaning), and every
well-formed version (`micro` present only with `minor`, components in
`i32` range), `unexpand_tag(template, expand_tag(template, v))` succeeds
and returns `v`. -/
theorem c7_tag_round_trip (pre post : Str) (v : Version)
    (_hpre : regexLiteral pre = true) (_hpost : regexLiteral post = true)
    (hocc : occCount dollarV (pre ++ dollarV ++ post) = 1)
    (hwf : v.micro.isSome → v.minor.isSome)
    (h1 : inI32 v.major)
    (h2 : ∀ m, v.minor = some m → inI32 m)
    (h3 : ∀ m, v.micro = some m → inI32 m) :
    unexpandTag (pre ++ dollarV ++ post)
      (expandTag (pre ++ dollarV ++ post) v) = .ok (.ok v) := by
  have hpat : dollarV ≠ [] := by decide
  have hexp : expandTag (pre ++ dollarV ++ post) v = pre ++ v.render ++ post :=
    replaceAll_single_occ v.render hpat hocc
  rw [hexp, unexpandTag, splitAtFirstOcc_single hpat hocc]
  show (match regexCaptureLit pre post (pre ++ v.render ++ post) with
    | none => PRes.ok (Except.error UnexpandErr.tagMismatch)
    | some cap =>
      match Version.fromStr cap with
      | .panicked => .panicked
      | .ok (.error e) => .ok (.error (.badCapture e))
      | .ok (.ok w) => .ok (.ok w)) = .ok (.ok v)
  rw [regexCaptureLit_spec pre v.render post]
  show (match Version.fromStr v.render with
    | .panicked => (.panicked : PRes (Except UnexpandErr Version))
    | .ok (.error e) => .ok (.error (.badCapture e))
    | .ok (.ok w) => .ok (.ok w)) = .ok (.ok v)
  rw [fromStr_render v hwf h1 h2 h3]

/-- Witness for the amended C7: template `v$VERSION`, version `1.2.3`. -/
theorem c7_tag_round_trip_witness :
    unexpandTag (str "v" ++ dollarV ++ [])
      (expandTag (str "v" ++ dollarV ++ []) ⟨1, some 2, some 3⟩) =
      .ok (.ok ⟨1, some 2, some 3⟩) :=
  c7_tag_round_trip (str "v") [] ⟨1, some 2, some 3⟩ (by decide) (by decide)
    (by decide) (by decide) (by decide)
    (fun m hm => by cases hm; decide) (fun m hm => by cases hm; decide)
